import Mathlib

/-!
Verification model of the `agg-files` tool (sources: `src/cli.rs`,
`src/config.rs`, `src/file_processor.rs`).

The development shallowly embeds the selection pipeline:

* the glob-to-regex translation `glob_to_regex` of `src/config.rs` (the
  string replacements, the `trim_start_matches("./")` call, and the final
  final anchored `Regex::new` compilation, which in the source is
  followed by `.unwrap()` — compilation failure is modelled as `none` and a
  call site hitting it is modelled as an aborted run);
* the semantics of the regex fragment those translations generate, following
  the `regex` crate's defaults: `.` matches any character except a newline,
  `^`/`$` anchor at the start/end of the haystack, `is_match` searches for a
  match anywhere.  The parser (`lexRegex`/`combineToks`) covers literals,
  escaped punctuation, `.`, the quantifiers `*` `+` `?` (with optional lazy
  marker) and the two anchors; the remaining regex constructs (classes,
  groups, alternation, counted repetition) are conservatively rejected.
  Every general theorem below restricts patterns to `globChar` characters,
  on which this fragment is exact; the one rejected construct evaluated
  concretely is the unclosed character class produced by the pattern "[",
  which the real `Regex::new` rejects as well;
* the filesystem walk of the `walkdir` crate as used by the processor
  (pre-order, `filter_entry` pruning applied to every entry including the
  root, optional `max_depth`), over a model filesystem of named files with
  byte sizes and directories;
* `FileProcessor::process`, `process_with_size_sorting` and their helpers
  from `src/file_processor.rs`.  Printing is modelled as a list of output
  items; a panic (an `unwrap` failure) is modelled by the second component
  `false` of a `(output, completed)` pair, keeping the output emitted
  before the panic.

Pattern arguments are modelled as relative paths inside the working
directory (empty and "." components are resolved away); `..` components and
absolute pattern paths are outside the model.  `GitignoreHelper::build` and
`PatternMatcher` live in files that are not part of `src/`; the gitignore
matcher is therefore kept abstract (an arbitrary predicate, as consumed via
`gi.matched(path, is_dir).is_ignore()`), and `PatternMatcher::glob_to_regex`
is modelled by the same translation as the config one, which the spec states
uses the same rules (section 4.2, item 1).
-/

namespace AggFiles

/-! Path strings -/

/-- Render a component list as a path string, as `Path::display` does for the
paths built by `walkdir` (components joined with "/"). -/
def pathStr (comps : List String) : String :=
  String.intercalate "/" comps

/-- Split a character list at every "/" (the semantics of
`str::split` with a "/" separator). -/
def splitOnSlash : List Char → List (List Char)
  | [] => [[]]
  | '/' :: rest => [] :: splitOnSlash rest
  | c :: rest =>
    match splitOnSlash rest with
    | [] => [[c]]
    | g :: gs => (c :: g) :: gs

/-- Split a pattern string into normalized path components: empty and "."
components are resolved away, as the OS does when the source evaluates
`Path::new(pattern).exists()`. -/
def patComps (p : String) : List String :=
  ((splitOnSlash p.data).map (fun l => String.mk l)).filter
    (fun c => !(c == "") && !(c == "."))

/-! Glob-to-regex translation (src/config.rs, `glob_to_regex`) -/

/-- `str::replace` for a single-character pattern: every occurrence of `c` is
replaced by `rep`.  The source applies it with patterns ".", "*" and "/". -/
def replaceChar (c : Char) (rep : List Char) : List Char → List Char
  | [] => []
  | a :: s => (if a == c then rep else [a]) ++ replaceChar c rep s

/-- The `cleaned_pattern` of the source: escape ".", expand "*" to ".*",
escape "/" — in that order. -/
def cleanedPattern (p : List Char) : List Char :=
  replaceChar '/' ['\\', '/'] (replaceChar '*' ['.', '*'] (replaceChar '.' ['\\', '.'] p))

/-- `str::trim_start_matches("./")`: repeatedly strip a leading "./".  In the
source this is applied to the already-escaped pattern. -/
def trimDotSlash : List Char → List Char
  | '.' :: '/' :: rest => trimDotSlash rest
  | s => s

/-- The regex source string built by the Rust code: the anchored wrapper
"^.*" and ".*$" around the trimmed cleaned pattern. -/
def regexSource (p : List Char) : List Char :=
  '^' :: '.' :: '*' :: (trimDotSlash (cleanedPattern p) ++ ['.', '*', '$'])

/-! The regex fragment and its parser -/

/-- Atom of the generated regex fragment: a literal character, the dot
metacharacter (any character except a newline, the `regex` crate default),
or one of the two haystack anchors. -/
inductive RAtom : Type
  | lit (c : Char)
  | dot
  | startAnchor
  | endAnchor
  deriving DecidableEq

/-- A parsed regex token: an atom, possibly under a quantifier. -/
inductive RTok : Type
  | once (a : RAtom)
  | star (a : RAtom)
  | plus (a : RAtom)
  | opt (a : RAtom)
  deriving DecidableEq

/-- Pre-token produced by the lexer: an atom or a bare quantifier symbol. -/
inductive PreTok : Type
  | atom (a : RAtom)
  | qstar
  | qplus
  | qopt
  deriving DecidableEq

/-- ASCII punctuation, the characters whose escape `\c` the `regex` crate
accepts as denoting the literal character. -/
def isPunct (c : Char) : Bool :=
  let n := c.toNat
  (33 ≤ n && n ≤ 47) || (58 ≤ n && n ≤ 64) || (91 ≤ n && n ≤ 96) || (123 ≤ n && n ≤ 126)

/-- Characters starting a regex construct outside the modelled fragment
(classes, groups, counted repetition, alternation); their codepoints are
40 `(`, 41 `)`, 91 `[`, 93 `]`, 123 left brace, 124 `|`, 125 right brace.
The parser conservatively rejects them. -/
def unsupportedChar (c : Char) : Bool :=
  c.toNat == 40 || c.toNat == 41 || c.toNat == 91 || c.toNat == 93 ||
    c.toNat == 123 || c.toNat == 124 || c.toNat == 125

/-- Lexer for the regex fragment: resolves escapes and tags bare quantifier
symbols. -/
def lexRegex : List Char → Option (List PreTok)
  | [] => some []
  | c :: rest =>
    if c == '\\' then
      match rest with
      | [] => none
      | d :: rest' =>
        if isPunct d then (lexRegex rest').map (fun l => PreTok.atom (RAtom.lit d) :: l)
        else none
    else if c == '.' then (lexRegex rest).map (fun l => PreTok.atom RAtom.dot :: l)
    else if c == '^' then (lexRegex rest).map (fun l => PreTok.atom RAtom.startAnchor :: l)
    else if c == '$' then (lexRegex rest).map (fun l => PreTok.atom RAtom.endAnchor :: l)
    else if c == '*' then (lexRegex rest).map (fun l => PreTok.qstar :: l)
    else if c == '+' then (lexRegex rest).map (fun l => PreTok.qplus :: l)
    else if c == '?' then (lexRegex rest).map (fun l => PreTok.qopt :: l)
    else if unsupportedChar c then none
    else (lexRegex rest).map (fun l => PreTok.atom (RAtom.lit c) :: l)

/-- Only literals and `.` may be quantified; a quantifier after an anchor is
a compilation error in the `regex` crate. -/
def quantifiable : RAtom → Bool
  | RAtom.lit _ => true
  | RAtom.dot => true
  | _ => false

/-- Attach quantifiers (with optional lazy `?` marker) to their atoms; a
quantifier with no preceding atom, a doubled quantifier, or a quantified
anchor is a compilation error (`none`). -/
def combineToks : List PreTok → Option (List RTok)
  | [] => some []
  | PreTok.atom a :: PreTok.qstar :: PreTok.qopt :: rest =>
    if quantifiable a then (combineToks rest).map (fun l => RTok.star a :: l) else none
  | PreTok.atom a :: PreTok.qstar :: rest =>
    if quantifiable a then (combineToks rest).map (fun l => RTok.star a :: l) else none
  | PreTok.atom a :: PreTok.qplus :: PreTok.qopt :: rest =>
    if quantifiable a then (combineToks rest).map (fun l => RTok.plus a :: l) else none
  | PreTok.atom a :: PreTok.qplus :: rest =>
    if quantifiable a then (combineToks rest).map (fun l => RTok.plus a :: l) else none
  | PreTok.atom a :: PreTok.qopt :: PreTok.qopt :: rest =>
    if quantifiable a then (combineToks rest).map (fun l => RTok.opt a :: l) else none
  | PreTok.atom a :: PreTok.qopt :: rest =>
    if quantifiable a then (combineToks rest).map (fun l => RTok.opt a :: l) else none
  | PreTok.atom a :: rest => (combineToks rest).map (fun l => RTok.once a :: l)
  | _ :: _ => none

/-- `Regex::new` on the modelled fragment: lex, then attach quantifiers. -/
def parseRegex (s : List Char) : Option (List RTok) :=
  (lexRegex s).bind combineToks

/-- `glob_to_regex` of `src/config.rs` (also used, per the spec, by the
pattern matcher): translate the glob and compile the anchored regex.  The
source calls `.unwrap()` on the result; `none` here therefore corresponds
to a panic at the call site. -/
def glob_to_regex (p : String) : Option (List RTok) :=
  parseRegex (regexSource p.data)

/-! Regex matching semantics (`Regex::is_match`) -/

/-- Does an atom consume the character `c`?  Anchors are zero-width and never
consume. -/
def RAtom.amatch : RAtom → Char → Bool
  | RAtom.lit c, d => c == d
  | RAtom.dot, d => d != '\n'
  | _, _ => false

/-- One layer of the token matcher.  `goDeep toks lazyFlag` continues the
match on the tail of the haystack; the `Bool` argument threaded through is
the at-start-of-haystack flag consulted by `^`.  All consuming steps consume
exactly one character, so the continuation is always invoked on the tail. -/
def pmatchStep (goDeep : List RTok → Bool → Bool) : List RTok → List Char → Bool → Bool
  | [], _, _ => true
  | RTok.once RAtom.startAnchor :: ts, s, b => b && pmatchStep goDeep ts s b
  | RTok.once RAtom.endAnchor :: ts, s, b => s.isEmpty && pmatchStep goDeep ts s b
  | RTok.once a :: ts, s, _ =>
    match s with
    | [] => false
    | c :: _ => a.amatch c && goDeep ts false
  | RTok.star a :: ts, s, b =>
    pmatchStep goDeep ts s b ||
      (match s with
       | [] => false
       | c :: _ => a.amatch c && goDeep (RTok.star a :: ts) false)
  | RTok.plus a :: ts, s, _ =>
    match s with
    | [] => false
    | c :: _ => a.amatch c && goDeep (RTok.star a :: ts) false
  | RTok.opt a :: ts, s, b =>
    pmatchStep goDeep ts s b ||
      (match s with
       | [] => false
       | c :: _ => a.amatch c && goDeep ts false)

/-- Match the token list against the haystack starting at the current
position; the flag records whether the current position is the haystack
start.  A match need not reach the end of the haystack (the generated
regexes instead end in `$`). -/
def pmatch : List Char → List RTok → Bool → Bool
  | [], ts, b => pmatchStep (fun _ _ => false) ts [] b
  | c :: s', ts, b => pmatchStep (fun ts' b' => pmatch s' ts' b') ts (c :: s') b

/-- Try a match at every starting position, as `Regex::is_match` does. -/
def rsearch (toks : List RTok) : List Char → Bool → Bool
  | [], b => pmatch [] toks b
  | c :: s', b => pmatch (c :: s') toks b || rsearch toks s' false

/-- `Regex::is_match` over the model. -/
def isMatch (toks : List RTok) (s : List Char) : Bool :=
  rsearch toks s true

/-- Compile a glob pattern and run the compiled matcher on a path string;
`none` models the panic of the source's `.unwrap()` on a pattern whose
translation does not compile. -/
def globMatches (p s : String) : Option Bool :=
  (glob_to_regex p).map (fun r => isMatch r s.data)

/-! The glob pattern language itself (specification side of C5) -/

/-- Characters with no regex metacharacter meaning after the translation:
everything except codepoints 36 `$`, 40 `(`, 41 `)`, 43 `+`, 63 `?`, 91 `[`,
92 backslash, 93 `]`, 94 `^`, 123 left brace, 124 `|`, 125 right brace.
On patterns of such characters the translation produces exactly the fragment
parsed above.  The glob characters ".", "*" and "/" are in this set. -/
def globChar (c : Char) : Bool :=
  !(c.toNat == 36 || c.toNat == 40 || c.toNat == 41 || c.toNat == 43 || c.toNat == 63 ||
    c.toNat == 91 || c.toNat == 92 || c.toNat == 93 || c.toNat == 94 || c.toNat == 123 ||
    c.toNat == 124 || c.toNat == 125)

/-- One layer of the direct glob generator: does the glob pattern generate
exactly the word `m`, where `*` stands for any newline-free character
sequence and every other character for itself?  `goDeep` continues on the
tail of `m`. -/
def globGenStep (goDeep : List Char → Bool) : List Char → List Char → Bool
  | [], m => m.isEmpty
  | c :: p, m =>
    if c == '*' then
      globGenStep goDeep p m ||
        (match m with
         | [] => false
         | d :: _ => (d != '\n') && goDeep (c :: p))
    else
      match m with
      | [] => false
      | d :: _ => (c == d) && goDeep p

/-- Does the glob pattern `p` generate the word `m`? -/
def globGenB : List Char → List Char → Bool
  | p, [] => globGenStep (fun _ => false) p []
  | p, d :: m' => globGenStep (fun p' => globGenB p' m') p (d :: m')

/-! Filesystem model -/

/-- A filesystem entry: a regular file with a byte size, or a directory with
an ordered list of children (the stable enumeration order of the walk). -/
inductive FSEntry : Type
  | file (name : String) (size : Nat)
  | dir (name : String) (children : List FSEntry)

/-- Name of an entry. -/
def FSEntry.name : FSEntry → String
  | FSEntry.file n _ => n
  | FSEntry.dir n _ => n

/-- `Path::is_dir` for an entry. -/
def FSEntry.isDir : FSEntry → Bool
  | FSEntry.file _ _ => false
  | FSEntry.dir _ _ => true

/-- Find a directory child by name. -/
def findEntry (fs : List FSEntry) (n : String) : Option FSEntry :=
  fs.find? (fun e => e.name == n)

/-- Resolve a normalized relative component list against the contents of the
working directory (`Path::new(pattern).exists()` / `is_dir()`).  The empty
component list (the working directory itself) is outside the model. -/
def lookupEntry : List FSEntry → List String → Option FSEntry
  | _, [] => none
  | fs, [n] => findEntry fs n
  | fs, n :: rest =>
    match findEntry fs n with
    | some (FSEntry.dir _ ch) => lookupEntry ch rest
    | _ => none

/-- The observable kind of a path: regular file (with its byte size) or
directory. -/
inductive PathKind : Type
  | file (size : Nat)
  | dir
  deriving DecidableEq

/-- Kind-level view of `lookupEntry`, used to state theorems without
comparing whole subtrees. -/
def statLookup (fs : List FSEntry) (comps : List String) : Option PathKind :=
  match lookupEntry fs comps with
  | some (FSEntry.file _ sz) => some (PathKind.file sz)
  | some (FSEntry.dir _ _) => some PathKind.dir
  | none => none

/-! The walk (`walkdir` with `filter_entry`) -/

/-- An entry yielded by the walk: its path, whether it is a directory, and
its byte size (0 for directories; `fs::metadata(path).len()` for files). -/
structure WalkEntry where
  path : List String
  isDir : Bool
  size : Nat
  deriving DecidableEq

mutual

/-- Pre-order walk of the entry at `path`, pruned by `keep` (the
`filter_entry` predicate, applied to every entry, the root included) and
depth-limited by `d` (`max_depth`; `none` is unlimited).  The result pairs
the yielded entries with a completion flag: `false` records that `keep`
panicked (returned `none`), aborting the run after the entries already
yielded. -/
def walkF (keep : List String → Bool → Option Bool) :
    Option Nat → List String → FSEntry → List WalkEntry × Bool
  | _, path, FSEntry.file _ sz =>
    match keep path false with
    | none => ([], false)
    | some false => ([], true)
    | some true => ([⟨path, false, sz⟩], true)
  | d, path, FSEntry.dir _ ch =>
    match keep path true with
    | none => ([], false)
    | some false => ([], true)
    | some true =>
      match d with
      | some 0 => ([⟨path, true, 0⟩], true)
      | some (k + 1) =>
        let r := walkList keep (some k) path ch
        (⟨path, true, 0⟩ :: r.1, r.2)
      | none =>
        let r := walkList keep none path ch
        (⟨path, true, 0⟩ :: r.1, r.2)

/-- Walk the children of a directory at `base` in order, stopping at the
first abort. -/
def walkList (keep : List String → Bool → Option Bool) :
    Option Nat → List String → List FSEntry → List WalkEntry × Bool
  | _, _, [] => ([], true)
  | d, base, e :: es =>
    let r := walkF keep d (base ++ [e.name]) e
    if r.2 then
      let r' := walkList keep d base es
      (r.1 ++ r'.1, r'.2)
    else r

end

/-! CLI arguments and configuration -/

/-- The parsed options record (`CliArgs` of `src/cli.rs`). -/
structure CliArgs where
  recursive : Bool
  ignore_gitignore : Bool
  patterns : List String
  github_url : Option String
  show_version : Bool
  files_only : Bool
  sort_by_size : Bool

/-- `Config` of `src/config.rs`: the optional ignore glob list loaded from
the project-local config file. -/
structure Config where
  ignore : Option (List String)

/-- The loop body of `Config::should_ignore`: compile each ignore pattern in
turn (a failing compilation is the source's `.unwrap()` panic, `none`) and
test it against the path string, short-circuiting on the first match. -/
def shouldIgnoreGo : List String → String → Option Bool
  | [], _ => some false
  | p :: ps, s =>
    match glob_to_regex p with
    | none => none
    | some r => if isMatch r s.data then some true else shouldIgnoreGo ps s

/-- `Config::should_ignore`. -/
def Config.should_ignore (cfg : Config) (path : String) : Option Bool :=
  match cfg.ignore with
  | none => some false
  | some pats => shouldIgnoreGo pats path

/-! The file processor (src/file_processor.rs) -/

/-- An item printed to standard output.  `header` is the streaming-mode
header line for a path (printed exactly as resolved); `body` stands for the
contents-plus-separator block or the read-error line for a path; `sizeLine`
is the size-sorted-mode header with the displayed path and byte size. -/
inductive OutItem : Type
  | header (path : String)
  | body (path : String)
  | sizeLine (shown : String) (size : Nat)
  deriving DecidableEq

/-- The `FileProcessor` state: parsed args, the gitignore matcher if enabled
(`gi.matched(path, is_dir).is_ignore()`, abstract because
`gitignore_helper.rs` is not part of `src/`), the working directory path,
the loaded config, and the modelled contents of the working directory (the
disk the Rust code reads ambiently). -/
structure FileProcessor where
  args : CliArgs
  gitignore : Option (List String → Bool → Bool)
  working_dir : List String
  config : Config
  fs : List FSEntry

/-- `FileProcessor::new`: the gitignore source is only built when the
ignore-disable option is not set. -/
def FileProcessor.new (args : CliArgs) (working_dir : List String)
    (helper : Option (List String → Bool → Bool)) (config : Config)
    (fs : List FSEntry) : FileProcessor :=
  ⟨args, if !args.ignore_gitignore then helper else none, working_dir, config, fs⟩

/-- `FileProcessor::should_process_entry`: config ignore list first, then the
unconditional `.git` component check, then the gitignore source if enabled.
`none` is a panic inside the config check (a non-compiling config pattern
reached before any match). -/
def FileProcessor.should_process_entry (P : FileProcessor)
    (path : List String) (isDir : Bool) : Option Bool :=
  match P.config.should_ignore (pathStr path) with
  | none => none
  | some true => some false
  | some false =>
    if path.any (fun c => c == ".git") then some false
    else
      match P.gitignore with
      | some gi => some (!(gi path isDir))
      | none => some true

/-- `FileProcessor::create_walker`: the depth limit of the walk rooted at the
working directory — unlimited when recursive, `max_depth(1)` otherwise. -/
def FileProcessor.create_walker (P : FileProcessor) : Option Nat :=
  if P.args.recursive then none else some 1

/-- `FileProcessor::process_single_file`: print the header line, and unless
files-only is set, the contents (or the read-error line). -/
def process_single_file (files_only : Bool) (shown : String) : List OutItem :=
  OutItem.header shown :: (if files_only then [] else [OutItem.body shown])

/-- `FileProcessor::process_directory`: walk the named directory without any
depth limit and emit every yielded regular file. -/
def FileProcessor.process_directory (P : FileProcessor)
    (root : List String) (e : FSEntry) : List OutItem × Bool :=
  let w := walkF P.should_process_entry none root e
  ((w.1.filter (fun x => !x.isDir)).flatMap
    (fun x => process_single_file P.args.files_only (pathStr x.path)), w.2)

/-- `FileProcessor::process_glob_pattern`: compile the pattern (panicking on
failure, before the walk starts), then walk the working directory honoring
the recursive option and emit every regular file whose path string matches. -/
def FileProcessor.process_glob_pattern (P : FileProcessor)
    (pat : String) : List OutItem × Bool :=
  match glob_to_regex pat with
  | none => ([], false)
  | some r =>
    let w := walkF P.should_process_entry P.create_walker P.working_dir (FSEntry.dir "" P.fs)
    ((w.1.filter (fun x => !x.isDir && isMatch r (pathStr x.path).data)).flatMap
      (fun x => process_single_file P.args.files_only (pathStr x.path)), w.2)

/-- One iteration of the streaming loop of `FileProcessor::process`: an
existing directory is walked, an existing regular file is emitted directly
and unconditionally, anything else is treated as a glob. -/
def FileProcessor.resolve_one (P : FileProcessor) (pat : String) : List OutItem × Bool :=
  match lookupEntry P.fs (patComps pat) with
  | some (FSEntry.dir n ch) => P.process_directory (patComps pat) (FSEntry.dir n ch)
  | some (FSEntry.file _ _) => (process_single_file P.args.files_only pat, true)
  | none => P.process_glob_pattern pat

/-- The streaming loop over the pattern list, stopping at the first panic. -/
def FileProcessor.processPatterns (P : FileProcessor) : List String → List OutItem × Bool
  | [] => ([], true)
  | pat :: rest =>
    let r := P.resolve_one pat
    if r.2 then
      let r' := P.processPatterns rest
      (r.1 ++ r'.1, r'.2)
    else r

/-! ### Size-sorted mode -/

/-- A collected candidate: the path as components (for ` strip_prefix`), the
path as stored for display (`Path::display`), and the byte size. -/
structure Candidate where
  comps : List String
  shown : String
  size : Nat
  deriving DecidableEq

/-- `FileProcessor::collect_files_with_sizes`: walk the named directory
without any depth limit and collect every regular file with its size. -/
def FileProcessor.collect_files_with_sizes (P : FileProcessor)
    (root : List String) (e : FSEntry) : List Candidate × Bool :=
  let w := walkF P.should_process_entry none root e
  ((w.1.filter (fun x => !x.isDir)).map
    (fun x => (⟨x.path, pathStr x.path, x.size⟩ : Candidate)), w.2)

/-- `FileProcessor::collect_files_from_glob`. -/
def FileProcessor.collect_files_from_glob (P : FileProcessor)
    (pat : String) : List Candidate × Bool :=
  match glob_to_regex pat with
  | none => ([], false)
  | some r =>
    let w := walkF P.should_process_entry P.create_walker P.working_dir (FSEntry.dir "" P.fs)
    ((w.1.filter (fun x => !x.isDir && isMatch r (pathStr x.path).data)).map
      (fun x => (⟨x.path, pathStr x.path, x.size⟩ : Candidate)), w.2)

/-- One iteration of the collection loop of
`FileProcessor::process_with_size_sorting`: a literal file contributes
itself (path stored as given on the command line) with its size,
unconditionally. -/
def FileProcessor.collect_one (P : FileProcessor) (pat : String) : List Candidate × Bool :=
  match lookupEntry P.fs (patComps pat) with
  | some (FSEntry.dir n ch) => P.collect_files_with_sizes (patComps pat) (FSEntry.dir n ch)
  | some (FSEntry.file _ sz) => ([⟨patComps pat, pat, sz⟩], true)
  | none => P.collect_files_from_glob pat

/-- The collection loop over the pattern list. -/
def FileProcessor.collectPatterns (P : FileProcessor) : List String → List Candidate × Bool
  | [] => ([], true)
  | pat :: rest =>
    let r := P.collect_one pat
    if r.2 then
      let r' := P.collectPatterns rest
      (r.1 ++ r'.1, r'.2)
    else r

/-- Insert a candidate into a size-descending list, after the strictly larger
ones and before the equal-or-smaller ones: the stable insertion step of the
stable `sort_by(|a, b| b.1.cmp(&a.1))` of the source. -/
def insertCand (x : Candidate) : List Candidate → List Candidate
  | [] => [x]
  | y :: ys => if y.size ≤ x.size then x :: y :: ys else y :: insertCand x ys

/-- Stable sort by size, descending (`Vec::sort_by` is a stable sort; any
stable sort with the same comparator is extensionally equal to it). -/
def sortCands (l : List Candidate) : List Candidate :=
  l.foldr insertCand []

/-- Component-wise `Path::strip_prefix`. -/
def relTo : List String → List String → Option (List String)
  | [], p => some p
  | _ :: _, [] => none
  | w :: ws, c :: cs => if w == c then relTo ws cs else none

/-- The path a size-sorted header displays: relative to the working directory
with a leading "./" when ` strip_prefix` succeeds, the stored path otherwise. -/
def displayPath (wd : List String) (c : Candidate) : String :=
  match relTo wd c.comps with
  | some rel => "./" ++ pathStr rel
  | none => c.shown

/-- `FileProcessor::process_with_size_sorting`: collect, stable-sort by size
descending, then print one size header per candidate.  A panic during
collection happens before anything is printed. -/
def FileProcessor.process_with_size_sorting (P : FileProcessor) : List OutItem × Bool :=
  let col := P.collectPatterns P.args.patterns
  if col.2 then
    ((sortCands col.1).map (fun c => OutItem.sizeLine (displayPath P.working_dir c) c.size), true)
  else ([], false)

/-- `FileProcessor::process`. -/
def FileProcessor.process (P : FileProcessor) : List OutItem × Bool :=
  if P.args.sort_by_size then P.process_with_size_sorting
  else P.processPatterns P.args.patterns

/-! ### The resolved candidate stream (for relating output to resolution) -/

/-- The paths resolved by one streaming iteration, before formatting: the
literal pattern string for an existing regular file, the walk-produced path
strings otherwise. -/
def FileProcessor.resolved_one (P : FileProcessor) (pat : String) : List String × Bool :=
  match lookupEntry P.fs (patComps pat) with
  | some (FSEntry.dir n ch) =>
    let w := walkF P.should_process_entry none (patComps pat) (FSEntry.dir n ch)
    ((w.1.filter (fun x => !x.isDir)).map (fun x => pathStr x.path), w.2)
  | some (FSEntry.file _ _) => ([pat], true)
  | none =>
    match glob_to_regex pat with
    | none => ([], false)
    | some r =>
      let w := walkF P.should_process_entry P.create_walker P.working_dir (FSEntry.dir "" P.fs)
      ((w.1.filter (fun x => !x.isDir && isMatch r (pathStr x.path).data)).map
        (fun x => pathStr x.path), w.2)

/-- The full resolved candidate stream, in pattern order. -/
def FileProcessor.resolvedPatterns (P : FileProcessor) : List String → List String × Bool
  | [] => ([], true)
  | pat :: rest =>
    let r := P.resolved_one pat
    if r.2 then
      let r' := P.resolvedPatterns rest
      (r.1 ++ r'.1, r'.2)
    else r

/-- The paths of the header lines in an output stream. -/
def headerPaths (l : List OutItem) : List String :=
  l.filterMap (fun i =>
    match i with
    | OutItem.header p => some p
    | _ => none)

/-! Bridge lemmas for the matcher -/

theorem pmatch_nil_toks (s : List Char) (b : Bool) : pmatch s [] b = true := by
  cases s <;> rfl

theorem pmatch_start (s : List Char) (ts : List RTok) (b : Bool) :
    pmatch s (RTok.once RAtom.startAnchor :: ts) b = (b && pmatch s ts b) := by
  cases s <;> rfl

theorem pmatch_end_tok (s : List Char) (ts : List RTok) (b : Bool) :
    pmatch s (RTok.once RAtom.endAnchor :: ts) b = (s.isEmpty && pmatch s ts b) := by
  cases s <;> rfl

theorem pmatch_lit_nil (c : Char) (ts : List RTok) (b : Bool) :
    pmatch [] (RTok.once (RAtom.lit c) :: ts) b = false := by
  rfl

theorem pmatch_lit_cons (c d : Char) (s : List Char) (ts : List RTok) (b : Bool) :
    pmatch (d :: s) (RTok.once (RAtom.lit c) :: ts) b = ((c == d) && pmatch s ts false) := by
  rfl

theorem pmatch_star_nil (a : RAtom) (ts : List RTok) (b : Bool) :
    pmatch [] (RTok.star a :: ts) b = pmatch [] ts b := by
  simp [pmatch, pmatchStep]

theorem pmatch_star_cons (a : RAtom) (d : Char) (s : List Char) (ts : List RTok) (b : Bool) :
    pmatch (d :: s) (RTok.star a :: ts) b =
      (pmatch (d :: s) ts b || (a.amatch d && pmatch s (RTok.star a :: ts) false)) := by
  rfl

/-- Token lists with no `^` token: on them the at-start flag is irrelevant. -/
def noStart (ts : List RTok) : Bool :=
  ts.all (fun t =>
    match t with
    | RTok.once RAtom.startAnchor => false
    | _ => true)

theorem pmatchStep_flag (g : List RTok → Bool → Bool) :
    ∀ (ts : List RTok) (s : List Char) (b b' : Bool), noStart ts = true →
      pmatchStep g ts s b = pmatchStep g ts s b'
  | [], _, _, _, _ => rfl
  | RTok.once a :: ts, s, b, b', h => by
    rw [noStart, List.all_cons, Bool.and_eq_true] at h
    cases a with
    | startAnchor => simp at h
    | endAnchor => simp [pmatchStep, pmatchStep_flag g ts s b b' h.2]
    | lit c => rfl
    | dot => rfl
  | RTok.star a :: ts, s, b, b', h => by
    rw [noStart, List.all_cons, Bool.and_eq_true] at h
    simp [pmatchStep, pmatchStep_flag g ts s b b' h.2]
  | RTok.plus a :: ts, s, b, b', h => rfl
  | RTok.opt a :: ts, s, b, b', h => by
    rw [noStart, List.all_cons, Bool.and_eq_true] at h
    simp [pmatchStep, pmatchStep_flag g ts s b b' h.2]

theorem pmatch_flag (s : List Char) (ts : List RTok) (h : noStart ts = true) (b b' : Bool) :
    pmatch s ts b = pmatch s ts b' := by
  cases s with
  | nil => exact pmatchStep_flag _ ts [] b b' h
  | cons c s' => exact pmatchStep_flag _ ts (c :: s') b b' h

/-! Splitting lemmas for the star wrapper and the generator -/

theorem star_split (ts : List RTok) (h : noStart ts = true) :
    ∀ (s : List Char) (b : Bool),
      (pmatch s (RTok.star RAtom.dot :: ts) b = true ↔
        ∃ u s', s = u ++ s' ∧ u.all (fun c => c != '\n') = true ∧ pmatch s' ts false = true)
  | [], b => by
    rw [pmatch_star_nil]
    constructor
    · intro hp
      exact ⟨[], [], rfl, rfl, by rw [pmatch_flag [] ts h false b]; exact hp⟩
    · rintro ⟨u, s', hsplit, _, hp⟩
      rcases List.append_eq_nil.mp hsplit.symm with ⟨rfl, rfl⟩
      rw [pmatch_flag [] ts h b false]
      exact hp
  | d :: s₂, b => by
    rw [pmatch_star_cons]
    constructor
    · intro hp
      rw [Bool.or_eq_true] at hp
      rcases hp with h1 | h2
      · exact ⟨[], d :: s₂, rfl, rfl, by rw [pmatch_flag _ ts h false b]; exact h1⟩
      · rw [Bool.and_eq_true] at h2
        rcases h2 with ⟨hd, hrest⟩
        rcases (star_split ts h s₂ false).mp hrest with ⟨u, s', rfl, hu, hp'⟩
        refine ⟨d :: u, s', rfl, ?_, hp'⟩
        rw [List.all_cons, Bool.and_eq_true]
        exact ⟨by simpa [RAtom.amatch] using hd, hu⟩
    · rintro ⟨u, s', hsplit, hu, hp⟩
      cases u with
      | nil =>
        simp only [List.nil_append] at hsplit
        subst hsplit
        rw [Bool.or_eq_true]
        exact Or.inl (by rw [pmatch_flag _ ts h b false]; exact hp)
      | cons e u' =>
        rw [List.cons_append] at hsplit
        injection hsplit with h1 h2
        subst h1
        rw [List.all_cons, Bool.and_eq_true] at hu
        rw [Bool.or_eq_true]
        refine Or.inr ?_
        rw [Bool.and_eq_true]
        refine ⟨by simpa [RAtom.amatch] using hu.1, ?_⟩
        exact (star_split ts h s₂ false).mpr ⟨u', s', h2, hu.2, hp⟩

/-! Bridge lemmas for the generator -/

theorem globGen_nil (m : List Char) : globGenB [] m = m.isEmpty := by
  cases m <;> rfl

theorem globGen_star_nil (p : List Char) : globGenB ('*' :: p) [] = globGenB p [] := by
  simp [globGenB, globGenStep]

theorem globGen_star_cons (p : List Char) (d : Char) (m' : List Char) :
    globGenB ('*' :: p) (d :: m') =
      (globGenB p (d :: m') || ((d != '\n') && globGenB ('*' :: p) m')) := by
  rfl

theorem globGen_lit_nil (c : Char) (p : List Char) (h : ¬ c = '*') :
    globGenB (c :: p) [] = false := by
  simp [globGenB, globGenStep, h]

theorem globGen_lit_cons (c : Char) (p : List Char) (h : ¬ c = '*') (d : Char) (m' : List Char) :
    globGenB (c :: p) (d :: m') = ((c == d) && globGenB p m') := by
  simp [globGenB, globGenStep, h]

theorem globGen_star_iff (p : List Char) :
    ∀ (m : List Char),
      (globGenB ('*' :: p) m = true ↔
        ∃ w m₂, m = w ++ m₂ ∧ w.all (fun c => c != '\n') = true ∧ globGenB p m₂ = true)
  | [] => by
    rw [globGen_star_nil]
    constructor
    · intro hp
      exact ⟨[], [], rfl, rfl, hp⟩
    · rintro ⟨w, m₂, hsplit, _, hp⟩
      rcases List.append_eq_nil.mp hsplit.symm with ⟨rfl, rfl⟩
      exact hp
  | d :: m' => by
    rw [globGen_star_cons]
    constructor
    · intro hp
      rw [Bool.or_eq_true] at hp
      rcases hp with h1 | h2
      · exact ⟨[], d :: m', rfl, rfl, h1⟩
      · rw [Bool.and_eq_true] at h2
        rcases h2 with ⟨hd, hrest⟩
        rcases (globGen_star_iff p m').mp hrest with ⟨w, m₂, rfl, hw, hp'⟩
        refine ⟨d :: w, m₂, rfl, ?_, hp'⟩
        rw [List.all_cons, Bool.and_eq_true]
        exact ⟨hd, hw⟩
    · rintro ⟨w, m₂, hsplit, hw, hp⟩
      cases w with
      | nil =>
        simp only [List.nil_append] at hsplit
        subst hsplit
        rw [Bool.or_eq_true]
        exact Or.inl hp
      | cons e w' =>
        rw [List.cons_append] at hsplit
        injection hsplit with h1 h2
        subst h1
        rw [List.all_cons, Bool.and_eq_true] at hw
        rw [Bool.or_eq_true]
        refine Or.inr ?_
        rw [Bool.and_eq_true]
        refine ⟨hw.1, ?_⟩
        exact (globGen_star_iff p m').mpr ⟨w', m₂, h2, hw.2, hp⟩

/-! The body of the generated regex -/

/-- Token sequence generated for the glob body: a `.*` for every `*`, a
literal token for every other pattern character. -/
def bodyToks (p : List Char) : List RTok :=
  p.flatMap (fun c => if c == '*' then [RTok.star RAtom.dot] else [RTok.once (RAtom.lit c)])

theorem bodyToks_cons (c : Char) (p : List Char) :
    bodyToks (c :: p) =
      (if c == '*' then [RTok.star RAtom.dot] else [RTok.once (RAtom.lit c)]) ++ bodyToks p := by
  simp [bodyToks]

theorem noStart_body (p : List Char) :
    noStart (bodyToks p ++ [RTok.star RAtom.dot, RTok.once RAtom.endAnchor]) = true := by
  induction p with
  | nil => rfl
  | cons c p ih =>
    rw [bodyToks_cons, List.append_assoc, noStart, List.all_append, Bool.and_eq_true]
    refine ⟨?_, ih⟩
    split <;> rfl

theorem body_iff : ∀ (p : List Char) (s : List Char),
    (pmatch s (bodyToks p ++ [RTok.star RAtom.dot, RTok.once RAtom.endAnchor]) false = true ↔
      ∃ m v, s = m ++ v ∧ globGenB p m = true ∧ v.all (fun c => c != '\n') = true)
  | [], s => by
    rw [show bodyToks [] ++ [RTok.star RAtom.dot, RTok.once RAtom.endAnchor] =
        RTok.star RAtom.dot :: [RTok.once RAtom.endAnchor] from rfl]
    rw [star_split [RTok.once RAtom.endAnchor] (by rfl) s false]
    constructor
    · rintro ⟨u, s', rfl, hu, hp⟩
      rw [pmatch_end_tok, pmatch_nil_toks, Bool.and_true] at hp
      have hs' : s' = [] := by simpa using hp
      subst hs'
      exact ⟨[], u, by simp, rfl, hu⟩
    · rintro ⟨m, v, rfl, hm, hv⟩
      rw [globGen_nil] at hm
      have hm' : m = [] := by simpa using hm
      subst hm'
      exact ⟨v, [], by simp, hv, rfl⟩
  | c :: p, s => by
    by_cases hc : c = '*'
    · subst hc
      rw [show bodyToks ('*' :: p) ++ [RTok.star RAtom.dot, RTok.once RAtom.endAnchor] =
          RTok.star RAtom.dot :: (bodyToks p ++ [RTok.star RAtom.dot, RTok.once RAtom.endAnchor])
          from rfl]
      rw [star_split _ (noStart_body p) s false]
      constructor
      · rintro ⟨u, s', rfl, hu, hp⟩
        rcases (body_iff p s').mp hp with ⟨m, v, rfl, hm, hv⟩
        refine ⟨u ++ m, v, by rw [List.append_assoc], ?_, hv⟩
        exact (globGen_star_iff p (u ++ m)).mpr ⟨u, m, rfl, hu, hm⟩
      · rintro ⟨m, v, hs, hm, hv⟩
        rcases (globGen_star_iff p m).mp hm with ⟨w, m₂, rfl, hw, hm₂⟩
        refine ⟨w, m₂ ++ v, by rw [hs, List.append_assoc], hw, ?_⟩
        exact (body_iff p (m₂ ++ v)).mpr ⟨m₂, v, rfl, hm₂, hv⟩
    · have hb : (c == '*') = false := by simpa using hc
      rw [bodyToks_cons, hb]
      rw [show ((if false = true then [RTok.star RAtom.dot] else [RTok.once (RAtom.lit c)]) ++
          bodyToks p) ++ [RTok.star RAtom.dot, RTok.once RAtom.endAnchor] =
          RTok.once (RAtom.lit c) ::
            (bodyToks p ++ [RTok.star RAtom.dot, RTok.once RAtom.endAnchor]) from by simp]
      cases s with
      | nil =>
        rw [pmatch_lit_nil]
        constructor
        · intro h
          simp at h
        · rintro ⟨m, v, hs, hm, hv⟩
          rcases List.append_eq_nil.mp hs.symm with ⟨rfl, rfl⟩
          rw [globGen_lit_nil c p hc] at hm
          exact hm
      | cons d s₂ =>
        rw [pmatch_lit_cons, Bool.and_eq_true]
        constructor
        · rintro ⟨hcd, hp⟩
          rcases (body_iff p s₂).mp hp with ⟨m, v, rfl, hm, hv⟩
          refine ⟨d :: m, v, rfl, ?_, hv⟩
          rw [globGen_lit_cons c p hc, Bool.and_eq_true]
          exact ⟨hcd, hm⟩
        · rintro ⟨m, v, hs, hm, hv⟩
          cases m with
          | nil =>
            rw [globGen_lit_nil c p hc] at hm
            simp at hm
          | cons e m₂ =>
            rw [List.cons_append] at hs
            injection hs with h1 h2
            subst h1
            rw [globGen_lit_cons c p hc, Bool.and_eq_true] at hm
            exact ⟨hm.1, (body_iff p s₂).mpr ⟨m₂, v, h2, hm.2, hv⟩⟩

/-! Search over anchored regexes -/

theorem rsearch_start_false (ts : List RTok) :
    ∀ (s : List Char), rsearch (RTok.once RAtom.startAnchor :: ts) s false = false
  | [] => by
    rw [rsearch, pmatch_start]
    rfl
  | c :: s' => by
    rw [rsearch, pmatch_start, rsearch_start_false ts s']
    rfl

theorem isMatch_anchored (ts : List RTok) (s : List Char) :
    isMatch (RTok.once RAtom.startAnchor :: ts) s = pmatch s ts true := by
  cases s with
  | nil =>
    rw [isMatch, rsearch, pmatch_start]
    rfl
  | cons c s' =>
    rw [isMatch, rsearch, pmatch_start, rsearch_start_false ts s']
    simp

/-! Parser correctness on glob patterns -/

theorem replaceChar_append (c : Char) (rep : List Char) :
    ∀ (a b : List Char), replaceChar c rep (a ++ b) = replaceChar c rep a ++ replaceChar c rep b
  | [], b => rfl
  | x :: a, b => by
    simp [replaceChar, replaceChar_append c rep a b, List.append_assoc]

/-- The two-character (or one-character) regex chunk the translation emits
for one pattern character. -/
def chunkOf (c : Char) : List Char :=
  if c == '.' then ['\\', '.']
  else if c == '*' then ['.', '*']
  else if c == '/' then ['\\', '/']
  else [c]

theorem cleaned_cons (c : Char) (p : List Char) :
    cleanedPattern (c :: p) = chunkOf c ++ cleanedPattern p := by
  have h1 : replaceChar '.' ['\\', '.'] (c :: p) =
      (if c == '.' then ['\\', '.'] else [c]) ++ replaceChar '.' ['\\', '.'] p := rfl
  rw [cleanedPattern, h1, replaceChar_append, replaceChar_append]
  rw [show cleanedPattern p =
      replaceChar '/' ['\\', '/'] (replaceChar '*' ['.', '*'] (replaceChar '.' ['\\', '.'] p))
      from rfl]
  congr 1
  by_cases h : c = '.'
  · subst h; rfl
  · by_cases h2 : c = '*'
    · subst h2; rfl
    · by_cases h3 : c = '/'
      · subst h3; rfl
      · simp [chunkOf, replaceChar, h, h2, h3]

theorem cleaned_eq : ∀ (p : List Char), cleanedPattern p = p.flatMap chunkOf
  | [] => rfl
  | c :: p => by
    rw [List.flatMap_cons, cleaned_cons, cleaned_eq p]

theorem trim_ne_dot (c : Char) (h : (c == '.') = false) (l : List Char) :
    trimDotSlash (c :: l) = c :: l := by
  rw [trimDotSlash.eq_def]
  split
  · rename_i rest heq
    injection heq with h1 _
    rw [h1] at h
    simp at h
  · rfl

theorem trim_chunks (p : List Char) : trimDotSlash (p.flatMap chunkOf) = p.flatMap chunkOf := by
  cases p with
  | nil => rfl
  | cons c p =>
    rw [List.flatMap_cons]
    by_cases h : c = '.'
    · subst h; rfl
    · by_cases h2 : c = '*'
      · subst h2; rfl
      · by_cases h3 : c = '/'
        · subst h3; rfl
        · rw [show chunkOf c = [c] from by simp [chunkOf, h, h2, h3]]
          rw [List.singleton_append]
          exact trim_ne_dot c (by simpa using h) _

theorem globChar_beq (c : Char) (h : globChar c = true) :
    (c == '\\') = false ∧ (c == '^') = false ∧ (c == '$') = false ∧
      (c == '+') = false ∧ (c == '?') = false ∧ unsupportedChar c = false := by
  rw [globChar, Bool.not_eq_true'] at h
  simp only [Bool.or_eq_false_iff] at h
  obtain ⟨⟨⟨⟨⟨⟨⟨⟨⟨⟨⟨h36, h40⟩, h41⟩, h43⟩, h63⟩, h91⟩, h92⟩, h93⟩, h94⟩, h123⟩, h124⟩, h125⟩ := h
  refine ⟨?_, ?_, ?_, ?_, ?_, ?_⟩
  · exact beq_eq_false_iff_ne.mpr (fun he => by subst he; simp at h92)
  · exact beq_eq_false_iff_ne.mpr (fun he => by subst he; simp at h94)
  · exact beq_eq_false_iff_ne.mpr (fun he => by subst he; simp at h36)
  · exact beq_eq_false_iff_ne.mpr (fun he => by subst he; simp at h43)
  · exact beq_eq_false_iff_ne.mpr (fun he => by subst he; simp at h63)
  · rw [unsupportedChar]
    simp [h40, h41, h91, h93, h123, h124, h125]

/-- The pre-token chunk the lexer produces for one pattern character. -/
def preChunk (c : Char) : List PreTok :=
  if c == '*' then [PreTok.atom RAtom.dot, PreTok.qstar] else [PreTok.atom (RAtom.lit c)]

theorem lex_body : ∀ (p : List Char), (∀ c ∈ p, globChar c = true) →
    lexRegex (p.flatMap chunkOf ++ ['.', '*', '$']) =
      some (p.flatMap preChunk ++
        [PreTok.atom RAtom.dot, PreTok.qstar, PreTok.atom RAtom.endAnchor])
  | [], _ => by decide
  | c :: p, h => by
    have hp : ∀ d ∈ p, globChar d = true := fun d hd => h d (List.mem_cons_of_mem c hd)
    have hc : globChar c = true := h c (List.mem_cons_self c p)
    rw [List.flatMap_cons, List.flatMap_cons, List.append_assoc, List.append_assoc]
    by_cases h1 : c = '.'
    · subst h1
      rw [show chunkOf '.' = ['\\', '.'] from rfl, show preChunk '.' = [PreTok.atom (RAtom.lit '.')] from rfl]
      simp only [List.cons_append, List.nil_append]
      rw [show lexRegex ('\\' :: '.' :: (p.flatMap chunkOf ++ ['.', '*', '$'])) =
          (lexRegex (p.flatMap chunkOf ++ ['.', '*', '$'])).map
            (fun l => PreTok.atom (RAtom.lit '.') :: l) from rfl]
      rw [lex_body p hp]
      rfl
    · by_cases h2 : c = '*'
      · subst h2
        rw [show chunkOf '*' = ['.', '*'] from rfl,
          show preChunk '*' = [PreTok.atom RAtom.dot, PreTok.qstar] from rfl]
        simp only [List.cons_append, List.nil_append]
        rw [show lexRegex ('.' :: '*' :: (p.flatMap chunkOf ++ ['.', '*', '$'])) =
            (lexRegex ('*' :: (p.flatMap chunkOf ++ ['.', '*', '$']))).map
              (fun l => PreTok.atom RAtom.dot :: l) from rfl]
        rw [show lexRegex ('*' :: (p.flatMap chunkOf ++ ['.', '*', '$'])) =
            (lexRegex (p.flatMap chunkOf ++ ['.', '*', '$'])).map
              (fun l => PreTok.qstar :: l) from by rw [lexRegex.eq_def]; simp]
        rw [lex_body p hp]
        rfl
      · by_cases h3 : c = '/'
        · subst h3
          rw [show chunkOf '/' = ['\\', '/'] from rfl,
            show preChunk '/' = [PreTok.atom (RAtom.lit '/')] from rfl]
          simp only [List.cons_append, List.nil_append]
          rw [show lexRegex ('\\' :: '/' :: (p.flatMap chunkOf ++ ['.', '*', '$'])) =
              (lexRegex (p.flatMap chunkOf ++ ['.', '*', '$'])).map
                (fun l => PreTok.atom (RAtom.lit '/') :: l) from rfl]
          rw [lex_body p hp]
          rfl
        · obtain ⟨hb1, hb2, hb3, hb4, hb5, hb6⟩ := globChar_beq c hc
          rw [show chunkOf c = [c] from by simp [chunkOf, h1, h2, h3]]
          rw [show preChunk c = [PreTok.atom (RAtom.lit c)] from by
            simp [preChunk, (by simpa using h2 : (c == '*') = false)]]
          simp only [List.cons_append, List.nil_append]
          rw [show lexRegex (c :: (p.flatMap chunkOf ++ ['.', '*', '$'])) =
              (lexRegex (p.flatMap chunkOf ++ ['.', '*', '$'])).map
                (fun l => PreTok.atom (RAtom.lit c) :: l) from by
            rw [lexRegex.eq_def]
            simp [hb1, hb2, hb3, hb4, hb5, hb6,
              (by simpa using h1 : (c == '.') = false),
              (by simpa using h2 : (c == '*') = false)]]
          rw [lex_body p hp]
          rfl

theorem body_head_atom (p : List Char) (tl : List PreTok) :
    ∃ a rest, p.flatMap preChunk ++ PreTok.atom RAtom.dot :: tl = PreTok.atom a :: rest := by
  cases p with
  | nil => exact ⟨RAtom.dot, tl, rfl⟩
  | cons c p =>
    rw [List.flatMap_cons]
    by_cases h : c = '*'
    · subst h
      exact ⟨RAtom.dot, PreTok.qstar :: (p.flatMap preChunk ++ PreTok.atom RAtom.dot :: tl), rfl⟩
    · have hb : (c == '*') = false := by simpa using h
      rw [show preChunk c = [PreTok.atom (RAtom.lit c)] from by simp [preChunk, hb]]
      exact ⟨RAtom.lit c, p.flatMap preChunk ++ PreTok.atom RAtom.dot :: tl, rfl⟩

theorem combine_body : ∀ (p : List Char),
    combineToks (p.flatMap preChunk ++
        [PreTok.atom RAtom.dot, PreTok.qstar, PreTok.atom RAtom.endAnchor]) =
      some (bodyToks p ++ [RTok.star RAtom.dot, RTok.once RAtom.endAnchor])
  | [] => by decide
  | c :: p => by
    obtain ⟨a, rest, hR⟩ := body_head_atom p [PreTok.qstar, PreTok.atom RAtom.endAnchor]
    by_cases h : c = '*'
    · subst h
      rw [List.flatMap_cons, show preChunk '*' = [PreTok.atom RAtom.dot, PreTok.qstar] from rfl]
      simp only [List.cons_append, List.nil_append]
      rw [hR]
      rw [show combineToks (PreTok.atom RAtom.dot :: PreTok.qstar :: PreTok.atom a :: rest) =
          (combineToks (PreTok.atom a :: rest)).map (fun l => RTok.star RAtom.dot :: l) from by
        rw [combineToks.eq_def]
        simp [quantifiable]]
      rw [← hR, combine_body p, bodyToks_cons]
      simp
    · have hb : (c == '*') = false := by simpa using h
      rw [List.flatMap_cons, show preChunk c = [PreTok.atom (RAtom.lit c)] from by
        simp [preChunk, hb]]
      simp only [List.cons_append, List.nil_append]
      rw [hR]
      rw [show combineToks (PreTok.atom (RAtom.lit c) :: PreTok.atom a :: rest) =
          (combineToks (PreTok.atom a :: rest)).map (fun l => RTok.once (RAtom.lit c) :: l) from by
        rw [combineToks.eq_def]
        try simp]
      rw [← hR, combine_body p, bodyToks_cons, hb]
      simp

theorem parse_glob (p : List Char) (h : ∀ c ∈ p, globChar c = true) :
    parseRegex (regexSource p) =
      some (RTok.once RAtom.startAnchor :: RTok.star RAtom.dot ::
        (bodyToks p ++ [RTok.star RAtom.dot, RTok.once RAtom.endAnchor])) := by
  rw [regexSource, cleaned_eq, trim_chunks, parseRegex]
  rw [show lexRegex ('^' :: '.' :: '*' :: (p.flatMap chunkOf ++ ['.', '*', '$'])) =
      (lexRegex ('.' :: '*' :: (p.flatMap chunkOf ++ ['.', '*', '$']))).map
        (fun l => PreTok.atom RAtom.startAnchor :: l) from by
    rw [lexRegex.eq_def]
    simp]
  rw [show lexRegex ('.' :: '*' :: (p.flatMap chunkOf ++ ['.', '*', '$'])) =
      (lexRegex ('*' :: (p.flatMap chunkOf ++ ['.', '*', '$']))).map
        (fun l => PreTok.atom RAtom.dot :: l) from by
    rw [lexRegex.eq_def]
    simp]
  rw [show lexRegex ('*' :: (p.flatMap chunkOf ++ ['.', '*', '$'])) =
      (lexRegex (p.flatMap chunkOf ++ ['.', '*', '$'])).map
        (fun l => PreTok.qstar :: l) from by
    rw [lexRegex.eq_def]
    simp]
  rw [lex_body p h]
  simp only [Option.map_some', Option.some_bind]
  obtain ⟨a, rest, hR⟩ := body_head_atom p [PreTok.qstar, PreTok.atom RAtom.endAnchor]
  rw [show (PreTok.atom RAtom.startAnchor :: PreTok.atom RAtom.dot :: PreTok.qstar ::
      (p.flatMap preChunk ++ [PreTok.atom RAtom.dot, PreTok.qstar, PreTok.atom RAtom.endAnchor])) =
      PreTok.atom RAtom.startAnchor :: PreTok.atom RAtom.dot :: PreTok.qstar ::
        (PreTok.atom a :: rest) from by rw [hR]]
  rw [show combineToks (PreTok.atom RAtom.startAnchor :: PreTok.atom RAtom.dot :: PreTok.qstar ::
      (PreTok.atom a :: rest)) =
      (combineToks (PreTok.atom RAtom.dot :: PreTok.qstar :: PreTok.atom a :: rest)).map
        (fun l => RTok.once RAtom.startAnchor :: l) from by
    rw [combineToks.eq_def]
    try simp]
  rw [show combineToks (PreTok.atom RAtom.dot :: PreTok.qstar :: PreTok.atom a :: rest) =
      (combineToks (PreTok.atom a :: rest)).map (fun l => RTok.star RAtom.dot :: l) from by
    rw [combineToks.eq_def]
    simp [quantifiable]]
  rw [← hR, combine_body p]
  rfl

theorem glob_tokens_iff (p : List Char) (s : List Char) :
    (isMatch (RTok.once RAtom.startAnchor :: RTok.star RAtom.dot ::
        (bodyToks p ++ [RTok.star RAtom.dot, RTok.once RAtom.endAnchor])) s = true ↔
      ∃ u m v, s = (u ++ m) ++ v ∧ u.all (fun c => c != '\n') = true ∧
        globGenB p m = true ∧ v.all (fun c => c != '\n') = true) := by
  rw [isMatch_anchored]
  rw [star_split _ (noStart_body p) s true]
  constructor
  · rintro ⟨u, s', rfl, hu, hp⟩
    rcases (body_iff p s').mp hp with ⟨m, v, rfl, hm, hv⟩
    exact ⟨u, m, v, by rw [List.append_assoc], hu, hm, hv⟩
  · rintro ⟨u, m, v, rfl, hu, hm, hv⟩
    exact ⟨u, m ++ v, by rw [List.append_assoc], hu, (body_iff p (m ++ v)).mpr ⟨m, v, rfl, hm, hv⟩⟩

/-- Main substring characterization of the compiled matcher on glob-alphabet
patterns: the path matches exactly when it splits as `u ++ m ++ v` with `u`
and `v` newline-free and `m` generated by the glob. -/
theorem globMatches_substring (p s : String) (h : ∀ c ∈ p.data, globChar c = true) :
    (globMatches p s = some true ↔
      ∃ u m v, s.data = (u ++ m) ++ v ∧ u.all (fun c => c != '\n') = true ∧
        globGenB p.data m = true ∧ v.all (fun c => c != '\n') = true) := by
  rw [globMatches, glob_to_regex, parse_glob p.data h]
  simp only [Option.map_some', Option.some.injEq]
  exact glob_tokens_iff p.data s.data

/-! Matchers that accept exactly the newline-free strings -/

theorem empty_matches_iff (s : String) :
    (globMatches "" s = some true ↔ s.data.all (fun c => c != '\n') = true) := by
  rw [globMatches_substring "" s (by decide)]
  constructor
  · rintro ⟨u, m, v, hs, hu, hm, hv⟩
    rw [show ("" : String).data = [] from rfl, globGen_nil] at hm
    have hm' : m = [] := by simpa using hm
    subst hm'
    rw [hs]
    simp only [List.all_append, List.append_nil]
    simp [hu, hv]
  · intro hall
    exact ⟨s.data, [], [], by simp, hall, rfl, rfl⟩

theorem star_matches_iff (s : String) :
    (globMatches "*" s = some true ↔ s.data.all (fun c => c != '\n') = true) := by
  rw [globMatches_substring "*" s (by decide)]
  rw [show ("*" : String).data = '*' :: [] from rfl]
  constructor
  · rintro ⟨u, m, v, hs, hu, hm, hv⟩
    have hm' : m.all (fun c => c != '\n') = true := by
      rcases (globGen_star_iff [] m).mp hm with ⟨w, m₂, rfl, hw, hm₂⟩
      rw [globGen_nil] at hm₂
      have h2 : m₂ = [] := by simpa using hm₂
      subst h2
      simpa using hw
    rw [hs]
    simp [List.all_append, hu, hm', hv]
  · intro hall
    refine ⟨[], s.data, [], by simp, rfl, ?_, rfl⟩
    exact (globGen_star_iff [] s.data).mpr ⟨s.data, [], by simp, hall, rfl⟩

/-! Claim C5 -/

/-- C5 counterexample: the claim asserts the compiled matcher accepts every
path containing a generated substring; the path consisting of a newline
followed by "foo" contains the substring "foo" generated by the pattern
"foo", yet the compiled matcher rejects it, because the implicit `.*`
wrappers of the generated regex `^.*foo.*$` do not match a newline under the
`regex` crate's default dot semantics. -/
theorem c5_counterexample :
    (∃ u m v, ("\nfoo" : String).data = (u ++ m) ++ v ∧
        globGenB ("foo" : String).data m = true) ∧
      globMatches "foo" "\nfoo" = some false :=
  ⟨⟨['\n'], ("foo" : String).data, [], by decide, by decide⟩, by decide⟩

/-- C5 (amended): for every pattern over the glob alphabet (no regex
metacharacters) and every path string, the compiled matcher accepts the path
iff the path contains a substring generated by the translated pattern
(literal `.` matching only itself, `*` matching any newline-free character
sequence — in particular path separators — and `/` matched literally), with
the two implicit wrapper sequences around the substring required to be
newline-free; matching is substring-anchored, not full-path-anchored. -/
theorem c5_claim (p s : String) (h : ∀ c ∈ p.data, globChar c = true) :
    (globMatches p s = some true ↔
      ∃ u m v, s.data = (u ++ m) ++ v ∧ u.all (fun c => c != '\n') = true ∧
        globGenB p.data m = true ∧ v.all (fun c => c != '\n') = true) :=
  globMatches_substring p s h

/-- C5 witness: compiling "foo" yields a matcher that accepts "xfoobar.txt". -/
theorem c5_witness : globMatches "foo" "xfoobar.txt" = some true :=
  (c5_claim "foo" "xfoobar.txt" (by decide)).mpr
    ⟨("x" : String).data, ("foo" : String).data, ("bar.txt" : String).data,
      by decide, by decide, by decide, by decide⟩

/-! Claim C6 -/

/-- C6: the source applies `trim_start_matches("./")` to the
already-escaped pattern, where a leading "./" has become the escaped
"\.\/" — so the strip never fires and the matcher compiled from "./foo"
still demands the literal substring "./foo".  Evaluating the code: the
matcher of "foo" accepts "afoo" while the matcher of "./foo" rejects it, so
the two matchers are not extensionally equal, contradicting the claim. -/
theorem c6_claim :
    globMatches "foo" "afoo" = some true ∧ globMatches "./foo" "afoo" = some false := by
  decide

/-! Claim C7 -/

/-- C7 counterexample: neither the matcher of the empty pattern nor the
matcher of "*" accepts the one-character path consisting of a newline — the
compiled regexes `^.*.*$` and `^.*.*.*$` cannot match it because `.` does
not match a newline — so neither compiles to "match everything". -/
theorem c7_counterexample :
    globMatches "" "\n" = some false ∧ globMatches "*" "\n" = some false := by
  decide

/-- C7 (amended): the empty pattern and the pattern "*" compile to
extensionally equal matchers, and both accept exactly the newline-free path
strings (every path string not containing a newline character, rather than
every path string). -/
theorem c7_claim (s : String) :
    globMatches "" s = globMatches "*" s ∧
      (globMatches "" s = some true ↔ s.data.all (fun c => c != '\n') = true) := by
  refine ⟨?_, empty_matches_iff s⟩
  have e0 : globMatches "" s =
      some (isMatch [RTok.once RAtom.startAnchor, RTok.star RAtom.dot, RTok.star RAtom.dot,
        RTok.once RAtom.endAnchor] s.data) := by
    rw [globMatches, show glob_to_regex "" = some [RTok.once RAtom.startAnchor,
      RTok.star RAtom.dot, RTok.star RAtom.dot, RTok.once RAtom.endAnchor] from by decide]
    rfl
  have e1 : globMatches "*" s =
      some (isMatch [RTok.once RAtom.startAnchor, RTok.star RAtom.dot, RTok.star RAtom.dot,
        RTok.star RAtom.dot, RTok.once RAtom.endAnchor] s.data) := by
    rw [globMatches, show glob_to_regex "*" = some [RTok.once RAtom.startAnchor,
      RTok.star RAtom.dot, RTok.star RAtom.dot, RTok.star RAtom.dot,
      RTok.once RAtom.endAnchor] from by decide]
    rfl
  rw [e0, e1]
  congr 1
  apply (by decide : ∀ a b : Bool, (a = true ↔ b = true) → a = b)
  constructor
  · intro hma
    have h1 : globMatches "" s = some true := by rw [e0, hma]
    have h2 := (star_matches_iff s).mpr ((empty_matches_iff s).mp h1)
    rw [e1] at h2
    simpa using h2
  · intro hmb
    have h2 : globMatches "*" s = some true := by rw [e1, hmb]
    have h1 := (empty_matches_iff s).mpr ((star_matches_iff s).mp h2)
    rw [e0] at h1
    simpa using h1

/-! Walk lemmas -/

mutual

/-- Every entry yielded by the walk passed the pruning predicate. -/
theorem walkF_keep (keep : List String → Bool → Option Bool) :
    ∀ (d : Option Nat) (base : List String) (e : FSEntry) (x : WalkEntry),
      x ∈ (walkF keep d base e).1 → keep x.path x.isDir = some true
  | d, base, FSEntry.file n sz, x, hx => by
    simp only [walkF] at hx
    cases hk : keep base false with
    | none => rw [hk] at hx; simp at hx
    | some b =>
      cases b with
      | false => rw [hk] at hx; simp at hx
      | true =>
        rw [hk] at hx
        simp at hx
        subst hx
        exact hk
  | d, base, FSEntry.dir n ch, x, hx => by
    simp only [walkF] at hx
    cases hk : keep base true with
    | none => rw [hk] at hx; simp at hx
    | some b =>
      cases b with
      | false => rw [hk] at hx; simp at hx
      | true =>
        rw [hk] at hx
        cases d with
        | none =>
          simp at hx
          rcases hx with hx | hx
          · subst hx; exact hk
          · exact walkList_keep keep none base ch x hx
        | some k =>
          cases k with
          | zero =>
            simp at hx
            subst hx
            exact hk
          | succ k =>
            simp at hx
            rcases hx with hx | hx
            · subst hx; exact hk
            · exact walkList_keep keep (some k) base ch x hx

theorem walkList_keep (keep : List String → Bool → Option Bool) :
    ∀ (d : Option Nat) (base : List String) (es : List FSEntry) (x : WalkEntry),
      x ∈ (walkList keep d base es).1 → keep x.path x.isDir = some true
  | d, base, [], x, hx => by simp [walkList] at hx
  | d, base, e :: es, x, hx => by
    simp only [walkList] at hx
    split at hx
    · rw [List.mem_append] at hx
      rcases hx with hx | hx
      · exact walkF_keep keep d (base ++ [e.name]) e x hx
      · exact walkList_keep keep d base es x hx
    · exact walkF_keep keep d (base ++ [e.name]) e x hx

end

mutual

/-- Every yielded path extends the walk root. -/
theorem walkF_extends (keep : List String → Bool → Option Bool) :
    ∀ (d : Option Nat) (base : List String) (e : FSEntry) (x : WalkEntry),
      x ∈ (walkF keep d base e).1 → base <+: x.path
  | d, base, FSEntry.file n sz, x, hx => by
    simp only [walkF] at hx
    cases hk : keep base false with
    | none => rw [hk] at hx; simp at hx
    | some b =>
      cases b with
      | false => rw [hk] at hx; simp at hx
      | true =>
        rw [hk] at hx
        simp at hx
        subst hx
        exact List.prefix_rfl
  | d, base, FSEntry.dir n ch, x, hx => by
    simp only [walkF] at hx
    cases hk : keep base true with
    | none => rw [hk] at hx; simp at hx
    | some b =>
      cases b with
      | false => rw [hk] at hx; simp at hx
      | true =>
        rw [hk] at hx
        cases d with
        | none =>
          simp at hx
          rcases hx with hx | hx
          · subst hx; exact List.prefix_rfl
          · exact (walkList_extends keep none base ch x hx).2
        | some k =>
          cases k with
          | zero =>
            simp at hx
            subst hx
            exact List.prefix_rfl
          | succ k =>
            simp at hx
            rcases hx with hx | hx
            · subst hx; exact List.prefix_rfl
            · exact (walkList_extends keep (some k) base ch x hx).2

/-- Entries yielded below a directory extend its path strictly, starting with
one of the children's names. -/
theorem walkList_extends (keep : List String → Bool → Option Bool) :
    ∀ (d : Option Nat) (base : List String) (es : List FSEntry) (x : WalkEntry),
      x ∈ (walkList keep d base es).1 →
        (∃ e, e ∈ es ∧ (base ++ [FSEntry.name e]) <+: x.path) ∧ base <+: x.path
  | d, base, [], x, hx => by simp [walkList] at hx
  | d, base, e :: es, x, hx => by
    simp only [walkList] at hx
    have hin : x ∈ (walkF keep d (base ++ [e.name]) e).1 ∨ x ∈ (walkList keep d base es).1 := by
      split at hx
      · rw [List.mem_append] at hx
        exact hx
      · exact Or.inl hx
    rcases hin with hx' | hx'
    · have h1 := walkF_extends keep d (base ++ [e.name]) e x hx'
      refine ⟨⟨e, List.mem_cons_self e es, h1⟩, ?_⟩
      exact (List.prefix_append base [e.name]).trans h1
    · rcases walkList_extends keep d base es x hx' with ⟨⟨e', he', h1⟩, h2⟩
      exact ⟨⟨e', List.mem_cons_of_mem e he', h1⟩, h2⟩

end

mutual

/-- Pruning: once the predicate rejects (or panics on) the directory at `D`,
no walk rooted at or above `D` yields anything strictly below `D`. -/
theorem walkF_pruned (keep : List String → Bool → Option Bool) (D : List String)
    (hD : keep D true ≠ some true) :
    ∀ (d : Option Nat) (base : List String) (e : FSEntry) (x : WalkEntry),
      base <+: D → x ∈ (walkF keep d base e).1 → ¬(D <+: x.path ∧ D ≠ x.path)
  | d, base, FSEntry.file n sz, x, hpre, hx => by
    simp only [walkF] at hx
    rintro ⟨hDx, hne⟩
    cases hk : keep base false with
    | none => rw [hk] at hx; simp at hx
    | some b =>
      cases b with
      | false => rw [hk] at hx; simp at hx
      | true =>
        rw [hk] at hx
        simp at hx
        subst hx
        exact hne (hpre.eq_of_length (le_antisymm hpre.length_le hDx.length_le)).symm
  | d, base, FSEntry.dir n ch, x, hpre, hx => by
    by_cases hbd : base = D
    · subst hbd
      simp only [walkF] at hx
      cases hk : keep base true with
      | none => rw [hk] at hx; simp at hx
      | some b =>
        cases b with
        | false => rw [hk] at hx; simp at hx
        | true => exact absurd hk hD
    · obtain ⟨t, hteq⟩ := hpre
      cases t with
      | nil => exact absurd (by simpa using hteq) hbd
      | cons d₀ ds =>
        simp only [walkF] at hx
        rintro ⟨hDx, hne⟩
        cases hk : keep base true with
        | none => rw [hk] at hx; simp at hx
        | some b =>
          cases b with
          | false => rw [hk] at hx; simp at hx
          | true =>
            rw [hk] at hx
            have hself : ¬(D <+: base ∧ D ≠ base) := by
              rintro ⟨hDb, _⟩
              have hlen : base.length < D.length := by
                rw [← hteq]
                simp
              have := hDb.length_le
              omega
            cases d with
            | none =>
              simp at hx
              rcases hx with hx | hx
              · subst hx; exact hself ⟨hDx, hne⟩
              · exact walkList_pruned keep D hD none base ch x d₀ ds hteq.symm hx ⟨hDx, hne⟩
            | some k =>
              cases k with
              | zero =>
                simp at hx
                subst hx
                exact hself ⟨hDx, hne⟩
              | succ k =>
                simp at hx
                rcases hx with hx | hx
                · subst hx; exact hself ⟨hDx, hne⟩
                · exact walkList_pruned keep D hD (some k) base ch x d₀ ds hteq.symm hx ⟨hDx, hne⟩

theorem walkList_pruned (keep : List String → Bool → Option Bool) (D : List String)
    (hD : keep D true ≠ some true) :
    ∀ (d : Option Nat) (base : List String) (es : List FSEntry) (x : WalkEntry)
      (d₀ : String) (ds : List String), D = base ++ d₀ :: ds →
      x ∈ (walkList keep d base es).1 → ¬(D <+: x.path ∧ D ≠ x.path)
  | d, base, [], x, d₀, ds, hDeq, hx => by simp [walkList] at hx
  | d, base, e :: es, x, d₀, ds, hDeq, hx => by
    have hin : x ∈ (walkF keep d (base ++ [e.name]) e).1 ∨ x ∈ (walkList keep d base es).1 := by
      simp only [walkList] at hx
      split at hx
      · rw [List.mem_append] at hx
        exact hx
      · exact Or.inl hx
    rcases hin with hx' | hx'
    · by_cases hname : e.name = d₀
      · have hpre' : (base ++ [e.name]) <+: D := by
          refine ⟨ds, ?_⟩
          rw [hDeq, hname, List.append_assoc]
          rfl
        exact walkF_pruned keep D hD d (base ++ [e.name]) e x hpre' hx'
      · rintro ⟨hDx, hne⟩
        have hbx : (base ++ [e.name]) <+: x.path := walkF_extends keep d (base ++ [e.name]) e x hx'
        have h1 : (base ++ [d₀]) <+: x.path := by
          refine List.IsPrefix.trans ⟨ds, ?_⟩ hDx
          rw [hDeq, List.append_assoc]
          rfl
        have h2 : (base ++ [d₀]) <+: (base ++ [e.name]) :=
          List.prefix_of_prefix_length_le h1 hbx (by simp)
        have h3 : base ++ [d₀] = base ++ [e.name] := h2.eq_of_length (by simp)
        have h4 : d₀ = e.name := by simpa using h3
        exact hname h4.symm
    · exact walkList_pruned keep D hD d base es x d₀ ds hDeq hx'

end

/-! Claim C4 -/

/-- C4: any path with a `.git` component is rejected by
`should_process_entry` (the check runs before the gitignore source and does
not depend on the ignore-disable option: the processor `P`, and with it both
the gitignore matcher and every CLI flag, is universally quantified), and
consequently no walk filtered by it ever yields such an entry. -/
theorem c4_claim :
    (∀ (P : FileProcessor) (path : List String) (isDir : Bool), ".git" ∈ path →
      P.should_process_entry path isDir ≠ some true) ∧
    (∀ (P : FileProcessor) (d : Option Nat) (base : List String) (e : FSEntry) (x : WalkEntry),
      x ∈ (walkF P.should_process_entry d base e).1 → ".git" ∉ x.path) := by
  have hexc : ∀ (P : FileProcessor) (path : List String) (isDir : Bool), ".git" ∈ path →
      P.should_process_entry path isDir ≠ some true := by
    intro P path isDir hmem
    rw [FileProcessor.should_process_entry]
    cases hC : Config.should_ignore P.config (pathStr path) with
    | none => simp
    | some b =>
      cases b with
      | true => simp
      | false =>
        have hany : path.any (fun c => c == ".git") = true := by
          rw [List.any_eq_true]
          exact ⟨".git", hmem, by simp⟩
        rw [hany]
        simp
  refine ⟨hexc, ?_⟩
  intro P d base e x hx hmem
  exact hexc P x.path x.isDir hmem (walkF_keep P.should_process_entry d base e x hx)

/-- Sample processor for the C4 witness: gitignore built (ignore-disable not
set), a `.git` directory present beside a regular file. -/
def procC4 : FileProcessor :=
  ⟨⟨true, false, [], none, false, false, false⟩, some (fun _ _ => false), ["w"], ⟨none⟩,
    [FSEntry.dir ".git" [FSEntry.file "HEAD" 5], FSEntry.file "a.txt" 1]⟩

/-- C4 witness: at a concrete processor, the entry `w/.git` is excluded and
the walk over the working directory yields only `.git`-free paths such as
`w/a.txt`. -/
theorem c4_witness :
    FileProcessor.should_process_entry procC4 ["w", ".git"] true ≠ some true ∧
      ".git" ∉ (⟨["w", "a.txt"], false, 1⟩ : WalkEntry).path :=
  ⟨c4_claim.1 procC4 ["w", ".git"] true (by decide),
    c4_claim.2 procC4 none ["w"] (FSEntry.dir "" procC4.fs)
      ⟨["w", "a.txt"], false, 1⟩ (by decide)⟩

/-! Claim C9 -/

/-- C9: if any of the three ignore sources — the config glob list, the
unconditional `.git` rule, or the (enabled) gitignore matcher — excludes a
directory `D` lying inside the traversal (at or below its root), then the
filtered walk yields no entry strictly below `D`: the subtree is pruned. -/
theorem c9_claim (P : FileProcessor) (d : Option Nat) (base : List String) (e : FSEntry)
    (D : List String) (hbase : base <+: D)
    (hsrc : Config.should_ignore P.config (pathStr D) = some true ∨ ".git" ∈ D ∨
      (∃ gi, P.gitignore = some gi ∧ gi D true = true))
    (x : WalkEntry) (hx : x ∈ (walkF P.should_process_entry d base e).1) :
    ¬(D <+: x.path ∧ D ≠ x.path) := by
  have hD : P.should_process_entry D true ≠ some true := by
    rw [FileProcessor.should_process_entry]
    rcases hsrc with hs | hs | hs
    · rw [hs]
      simp
    · cases hC : Config.should_ignore P.config (pathStr D) with
      | none => simp
      | some b =>
        cases b with
        | true => simp
        | false =>
          have hany : D.any (fun c => c == ".git") = true := by
            rw [List.any_eq_true]
            exact ⟨".git", hs, by simp⟩
          rw [hany]
          simp
    · rcases hs with ⟨gi, hgi, hig⟩
      cases hC : Config.should_ignore P.config (pathStr D) with
      | none => simp
      | some b =>
        cases b with
        | true => simp
        | false =>
          cases hany : D.any (fun c => c == ".git") with
          | true => simp
          | false =>
            rw [hgi]
            simp [hig]
  exact walkF_pruned P.should_process_entry D hD d base e x hbase hx

/-- Sample processor for the C9 witness: the config ignore list excludes the
directory "build"; a matching file sits beneath it and an unrelated file
beside it. -/
def procC9 : FileProcessor :=
  ⟨⟨true, true, ["*.txt"], none, false, false, false⟩, none, ["w"], ⟨some ["build"]⟩,
    [FSEntry.dir "build" [FSEntry.file "x.txt" 1], FSEntry.file "a.txt" 2]⟩

/-- C9 witness: at a concrete processor whose config excludes `w/build`, the
walk yields `w/a.txt`, and the theorem confirms that entry is not below the
excluded directory. -/
theorem c9_witness :
    ¬((["w", "build"] : List String) <+: (⟨["w", "a.txt"], false, 2⟩ : WalkEntry).path ∧
      (["w", "build"] : List String) ≠ (⟨["w", "a.txt"], false, 2⟩ : WalkEntry).path) :=
  c9_claim procC9 none ["w"] (FSEntry.dir "" procC9.fs) ["w", "build"]
    (by decide) (Or.inl (by decide)) ⟨["w", "a.txt"], false, 2⟩ (by decide)

/-! Claim C2 -/

/-- Sample processor for C2: the first pattern "[" names nothing on disk and
its translation `^.*[.*$` does not compile; the second pattern names an
existing file. -/
def procC2 : FileProcessor :=
  ⟨⟨false, true, ["[", "a.txt"], none, false, true, false⟩, none, ["w"], ⟨none⟩,
    [FSEntry.file "a.txt" 3]⟩

/-- C2: the translation of the pattern "[" fails to compile (unclosed
character class), and because `glob_to_regex` unwraps the compilation
result, the whole run aborts: nothing is printed and the later pattern
"a.txt" — an existing file that a continuing run would emit — is never
processed.  This contradicts the claim that a compilation failure is
reported and only that pattern's contribution skipped. -/
theorem c2_claim :
    glob_to_regex "[" = none ∧
      statLookup procC2.fs (patComps "a.txt") = some (PathKind.file 3) ∧
      FileProcessor.process procC2 = ([], false) := by
  decide

/-! Claim C3 -/

/-- C3: a pattern that names an existing regular file is emitted directly
and unconditionally, in both modes: no hypothesis about the config ignore
list, the `.git` rule or the gitignore matcher is needed — the processor is
arbitrary, so in particular an ignore glob matching the file (or a path into
a `.git` directory) does not prevent emission. -/
theorem c3_claim (P : FileProcessor) (pat : String) (sz : Nat)
    (h : statLookup P.fs (patComps pat) = some (PathKind.file sz)) :
    P.resolve_one pat =
      (OutItem.header pat :: (if P.args.files_only then [] else [OutItem.body pat]), true) ∧
      P.collect_one pat = ([⟨patComps pat, pat, sz⟩], true) := by
  rw [statLookup] at h
  cases hlook : lookupEntry P.fs (patComps pat) with
  | none =>
    rw [hlook] at h
    simp at h
  | some e =>
    cases e with
    | file n s' =>
      rw [hlook] at h
      simp only [Option.some.injEq, PathKind.file.injEq] at h
      subst h
      constructor
      · simp [FileProcessor.resolve_one, hlook, process_single_file]
      · simp [FileProcessor.collect_one, hlook]
    | dir n ch =>
      rw [hlook] at h
      simp at h

/-- Sample processor for the C3 witness: the config ignore list contains
"*.log" and the gitignore matcher ignores everything, yet the literal
pattern "debug.log" names an existing 5-byte file. -/
def procC3 : FileProcessor :=
  ⟨⟨false, false, ["debug.log"], none, false, false, false⟩, some (fun _ _ => true), ["w"],
    ⟨some ["*.log"]⟩, [FSEntry.file "debug.log" 5]⟩

/-- C3 witness: the config glob "*.log" does match "debug.log" (so glob
resolution would exclude it), yet the literal pattern emits it in both
modes. -/
theorem c3_witness :
    Config.should_ignore procC3.config "debug.log" = some true ∧
      procC3.resolve_one "debug.log" =
        (OutItem.header "debug.log" ::
          (if procC3.args.files_only then [] else [OutItem.body "debug.log"]), true) ∧
      procC3.collect_one "debug.log" = ([⟨["debug.log"], "debug.log", 5⟩], true) := by
  have h := c3_claim procC3 "debug.log" 5 (by decide)
  exact ⟨by decide, h.1, by rw [h.2]; decide⟩

/-! Claim C8 -/

theorem mem_insertCand (x z : Candidate) :
    ∀ (l : List Candidate), z ∈ insertCand x l → z = x ∨ z ∈ l
  | [], hz => by
    simp [insertCand] at hz
    exact Or.inl hz
  | y :: ys, hz => by
    rw [insertCand] at hz
    split at hz
    · rcases List.mem_cons.mp hz with hz | hz
      · exact Or.inl hz
      · exact Or.inr hz
    · rcases List.mem_cons.mp hz with hz | hz
      · exact Or.inr (by rw [hz]; exact List.mem_cons_self y ys)
      · rcases mem_insertCand x z ys hz with h | h
        · exact Or.inl h
        · exact Or.inr (List.mem_cons_of_mem y h)

theorem pairwise_insertCand (x : Candidate) :
    ∀ (l : List Candidate), l.Pairwise (fun a b => b.size ≤ a.size) →
      (insertCand x l).Pairwise (fun a b => b.size ≤ a.size)
  | [], _ => by simp [insertCand]
  | y :: ys, hl => by
    rw [insertCand]
    rcases List.pairwise_cons.mp hl with ⟨hy, hys⟩
    split
    · rename_i hle
      refine List.pairwise_cons.mpr ⟨?_, hl⟩
      intro z hz
      rcases List.mem_cons.mp hz with hz | hz
      · subst hz; exact hle
      · exact le_trans (hy z hz) hle
    · rename_i hgt
      refine List.pairwise_cons.mpr ⟨?_, pairwise_insertCand x ys hys⟩
      intro z hz
      rcases mem_insertCand x z ys hz with hz | hz
      · subst hz; omega
      · exact hy z hz

theorem sortCands_sorted (l : List Candidate) :
    (sortCands l).Pairwise (fun a b => b.size ≤ a.size) := by
  induction l with
  | nil => simp [sortCands]
  | cons c cs ih => exact pairwise_insertCand c (sortCands cs) ih

theorem filter_insertCand_pos (x : Candidate) (s : Nat) (hx : (x.size == s) = true) :
    ∀ (l : List Candidate),
      (insertCand x l).filter (fun c => c.size == s) = x :: l.filter (fun c => c.size == s)
  | [] => by simp [insertCand, List.filter, hx]
  | y :: ys => by
    rw [insertCand]
    split
    · simp [List.filter_cons, hx]
    · rename_i hgt
      have hxs : x.size = s := by simpa using hx
      have hy : (y.size == s) = false := beq_eq_false_iff_ne.mpr (by omega)
      simp [List.filter_cons, hy, filter_insertCand_pos x s hx ys]

theorem filter_insertCand_neg (x : Candidate) (s : Nat) (hx : (x.size == s) = false) :
    ∀ (l : List Candidate),
      (insertCand x l).filter (fun c => c.size == s) = l.filter (fun c => c.size == s)
  | [] => by simp [insertCand, List.filter, hx]
  | y :: ys => by
    rw [insertCand]
    split
    · simp [List.filter_cons, hx]
    · rw [List.filter_cons, List.filter_cons, filter_insertCand_neg x s hx ys]

theorem sortCands_filter (s : Nat) :
    ∀ (l : List Candidate),
      (sortCands l).filter (fun c => c.size == s) = l.filter (fun c => c.size == s)
  | [] => rfl
  | c :: cs => by
    rw [show sortCands (c :: cs) = insertCand c (sortCands cs) from rfl]
    cases hc : (c.size == s) with
    | true =>
      rw [filter_insertCand_pos c s hc (sortCands cs), sortCands_filter s cs]
      rw [List.filter_cons, hc]
      try simp
    | false =>
      rw [filter_insertCand_neg c s hc (sortCands cs), sortCands_filter s cs]
      rw [List.filter_cons, hc]
      try simp

/-- Sample processor for the C8 witness: four files of sizes 10, 30, 10, 30
collected in name order by a glob, printed in size-sorted mode. -/
def procC8 : FileProcessor :=
  ⟨⟨true, true, ["*.txt"], none, false, false, true⟩, none, ["w"], ⟨none⟩,
    [FSEntry.file "a.txt" 10, FSEntry.file "b.txt" 30, FSEntry.file "c.txt" 10,
      FSEntry.file "d.txt" 30]⟩

/-- C8: the size-sorted order is descending by size and stable — for every
size, the subsequence of collected candidates of that size is preserved
verbatim — and in size-sorted mode the printed lines are precisely the
sorted candidates in order.  The final conjunct checks the spec's concrete
[10, 30, 10, 30] example: resolution order a, b, c, d prints b, d, a, c. -/
theorem c8_claim (P : FileProcessor) :
    (sortCands (P.collectPatterns P.args.patterns).1).Pairwise
        (fun a b => b.size ≤ a.size) ∧
      (∀ s, (sortCands (P.collectPatterns P.args.patterns).1).filter (fun c => c.size == s) =
        (P.collectPatterns P.args.patterns).1.filter (fun c => c.size == s)) ∧
      (P.args.sort_by_size = true → (P.collectPatterns P.args.patterns).2 = true →
        P.process = ((sortCands (P.collectPatterns P.args.patterns).1).map
          (fun c => OutItem.sizeLine (displayPath P.working_dir c) c.size), true)) := by
  refine ⟨sortCands_sorted _, fun s => sortCands_filter s _, fun hss hok => ?_⟩
  rw [FileProcessor.process, hss]
  simp only [if_true]
  rw [FileProcessor.process_with_size_sorting]
  simp only [hok, if_true]

/-- C8 witness: running the sample processor prints the two 30-byte files
before the two 10-byte files, each pair in resolution order. -/
theorem c8_witness :
    FileProcessor.process procC8 =
      ((sortCands (procC8.collectPatterns procC8.args.patterns).1).map
        (fun c => OutItem.sizeLine (displayPath procC8.working_dir c) c.size), true) ∧
      FileProcessor.process procC8 =
        ([OutItem.sizeLine "./b.txt" 30, OutItem.sizeLine "./d.txt" 30,
          OutItem.sizeLine "./a.txt" 10, OutItem.sizeLine "./c.txt" 10], true) :=
  ⟨(c8_claim procC8).2.2 (by decide) (by decide), by decide⟩

/-! Claim C10 -/

theorem relTo_iff : ∀ (w l r : List String), relTo w l = some r ↔ l = w ++ r
  | [], l, r => by
    simp [relTo]
  | w :: ws, [], r => by
    simp [relTo]
  | w :: ws, c :: cs, r => by
    rw [relTo]
    split
    · rename_i heq
      have hw : w = c := by simpa using heq
      subst hw
      rw [relTo_iff ws cs r]
      constructor
      · intro h
        rw [h]
        rfl
      · intro h
        simpa using h
    · rename_i hne
      have hw : ¬ w = c := by simpa using hne
      constructor
      · intro h
        simp at h
      · intro h
        injection h with h1 h2
        exact absurd h1.symm hw

theorem headerPaths_append (a b : List OutItem) :
    headerPaths (a ++ b) = headerPaths a ++ headerPaths b := by
  rw [headerPaths, headerPaths, headerPaths, List.filterMap_append]

theorem headerPaths_single (fo : Bool) (shown : String) :
    headerPaths (process_single_file fo shown) = [shown] := by
  cases fo <;> rfl

theorem headerPaths_flatMap (fo : Bool) (f : WalkEntry → String) :
    ∀ (l : List WalkEntry),
      headerPaths (l.flatMap (fun x => process_single_file fo (f x))) = l.map f
  | [] => rfl
  | x :: xs => by
    rw [List.flatMap_cons, headerPaths_append, headerPaths_single, List.map_cons,
      headerPaths_flatMap fo f xs]
    rfl

theorem headers_resolve_one (P : FileProcessor) (pat : String) :
    headerPaths (P.resolve_one pat).1 = (P.resolved_one pat).1 ∧
      (P.resolve_one pat).2 = (P.resolved_one pat).2 := by
  rw [FileProcessor.resolve_one, FileProcessor.resolved_one]
  cases hlook : lookupEntry P.fs (patComps pat) with
  | none =>
    cases hr : glob_to_regex pat with
    | none =>
      rw [FileProcessor.process_glob_pattern, hr]
      exact ⟨rfl, rfl⟩
    | some r =>
      rw [FileProcessor.process_glob_pattern, hr]
      exact ⟨headerPaths_flatMap _ _ _, rfl⟩
  | some e =>
    cases e with
    | file n sz => exact ⟨headerPaths_single _ _, rfl⟩
    | dir n ch =>
      simp only [FileProcessor.process_directory]
      exact ⟨headerPaths_flatMap _ _ _, trivial⟩

theorem headers_processPatterns (P : FileProcessor) :
    ∀ (l : List String),
      headerPaths (P.processPatterns l).1 = (P.resolvedPatterns l).1 ∧
        (P.processPatterns l).2 = (P.resolvedPatterns l).2
  | [] => ⟨rfl, rfl⟩
  | pat :: rest => by
    rw [FileProcessor.processPatterns, FileProcessor.resolvedPatterns]
    obtain ⟨h1, h2⟩ := headers_resolve_one P pat
    obtain ⟨ih1, ih2⟩ := headers_processPatterns P rest
    cases hflag : (P.resolve_one pat).2 with
    | false =>
      have hflag' : (P.resolved_one pat).2 = false := h2.symm.trans hflag
      rw [hflag']
      simp only [Bool.false_eq_true, if_false]
      exact ⟨h1, h2⟩
    | true =>
      have hflag' : (P.resolved_one pat).2 = true := h2.symm.trans hflag
      rw [hflag']
      simp only [if_true]
      exact ⟨by rw [headerPaths_append, h1, ih1], ih2⟩

/-- C10: in streaming mode the header lines carry exactly the resolved
candidate paths (the literal pattern string for an explicit file, the
walk-produced path otherwise) with no relativization; the display path of a
size-sorted header is the "./"-prefixed working-directory-relative path
exactly when the stored path is under the working directory, and the stored
path unchanged otherwise; and size-sorted output consists of exactly those
display paths. -/
theorem c10_claim (P : FileProcessor) :
    (P.args.sort_by_size = false →
      headerPaths (P.process).1 = (P.resolvedPatterns P.args.patterns).1) ∧
      (∀ (c : Candidate),
        (P.working_dir <+: c.comps →
          displayPath P.working_dir c =
            "./" ++ pathStr (c.comps.drop P.working_dir.length)) ∧
        (¬ P.working_dir <+: c.comps → displayPath P.working_dir c = c.shown)) ∧
      (P.args.sort_by_size = true → (P.collectPatterns P.args.patterns).2 = true →
        (P.process).1 = (sortCands (P.collectPatterns P.args.patterns).1).map
          (fun c => OutItem.sizeLine (displayPath P.working_dir c) c.size)) := by
  refine ⟨?_, ?_, ?_⟩
  · intro hss
    rw [FileProcessor.process, hss]
    simp only [Bool.false_eq_true, if_false]
    exact (headers_processPatterns P P.args.patterns).1
  · intro c
    constructor
    · intro hpre
      obtain ⟨t, ht⟩ := hpre
      have hrel : relTo P.working_dir c.comps = some t := (relTo_iff _ _ _).mpr ht.symm
      have hdrop : c.comps.drop P.working_dir.length = t := by
        rw [← ht]
        simp
      rw [displayPath, hrel, hdrop]
    · intro hnpre
      cases hrel : relTo P.working_dir c.comps with
      | none => rw [displayPath, hrel]
      | some t =>
        exact absurd ⟨t, ((relTo_iff _ _ _).mp hrel).symm⟩ hnpre
  · intro hss hok
    rw [FileProcessor.process, hss]
    simp only [if_true]
    rw [FileProcessor.process_with_size_sorting]
    simp only [hok, if_true]

/-- Sample processor for the C10 witness: one literal file pattern and one
glob pattern, streaming mode. -/
def procC10 : FileProcessor :=
  ⟨⟨true, true, ["d/n.txt", "*.txt"], none, false, false, false⟩, none, ["w"], ⟨none⟩,
    [FSEntry.dir "d" [FSEntry.file "n.txt" 4], FSEntry.file "a.txt" 3]⟩

/-- C10 witness: at a concrete processor the streaming headers equal the
resolved paths, and the display-path characterization instantiates to a path
under the working directory and one outside it. -/
theorem c10_witness :
    headerPaths (FileProcessor.process procC10).1 =
        (procC10.resolvedPatterns procC10.args.patterns).1 ∧
      displayPath ["w"] ⟨["w", "a.txt"], "w/a.txt", 3⟩ = "./a.txt" ∧
      displayPath ["w"] ⟨["d", "n.txt"], "d/n.txt", 4⟩ = "d/n.txt" := by
  refine ⟨(c10_claim procC10).1 (by decide), ?_, ?_⟩
  · exact (((c10_claim procC10).2.1 ⟨["w", "a.txt"], "w/a.txt", 3⟩).1 (by decide)).trans
      (by decide)
  · exact ((c10_claim procC10).2.1 ⟨["d", "n.txt"], "d/n.txt", 4⟩).2 (by decide)

/-! Claim C1 -/

theorem spe_congr (P Q : FileProcessor) (hcfg : P.config = Q.config)
    (hgi : P.gitignore = Q.gitignore) :
    P.should_process_entry = Q.should_process_entry := by
  funext path isDir
  rw [FileProcessor.should_process_entry, FileProcessor.should_process_entry, hcfg, hgi]

theorem resolve_one_lit (P Q : FileProcessor) (hfs : P.fs = Q.fs) (hcfg : P.config = Q.config)
    (hgi : P.gitignore = Q.gitignore) (hfo : P.args.files_only = Q.args.files_only)
    (pat : String) (hlit : (statLookup P.fs (patComps pat)).isSome = true) :
    P.resolve_one pat = Q.resolve_one pat := by
  rw [statLookup] at hlit
  rw [FileProcessor.resolve_one, FileProcessor.resolve_one, ← hfs]
  cases hlook : lookupEntry P.fs (patComps pat) with
  | none => rw [hlook] at hlit; simp at hlit
  | some e =>
    cases e with
    | file n sz => rw [hfo]
    | dir n ch => simp only [FileProcessor.process_directory, spe_congr P Q hcfg hgi, hfo]

theorem collect_one_lit (P Q : FileProcessor) (hfs : P.fs = Q.fs) (hcfg : P.config = Q.config)
    (hgi : P.gitignore = Q.gitignore)
    (pat : String) (hlit : (statLookup P.fs (patComps pat)).isSome = true) :
    P.collect_one pat = Q.collect_one pat := by
  rw [statLookup] at hlit
  rw [FileProcessor.collect_one, FileProcessor.collect_one, ← hfs]
  cases hlook : lookupEntry P.fs (patComps pat) with
  | none => rw [hlook] at hlit; simp at hlit
  | some e =>
    cases e with
    | file n sz => rfl
    | dir n ch => simp only [FileProcessor.collect_files_with_sizes, spe_congr P Q hcfg hgi]

theorem processPatterns_lit (P Q : FileProcessor) (hfs : P.fs = Q.fs)
    (hcfg : P.config = Q.config) (hgi : P.gitignore = Q.gitignore)
    (hfo : P.args.files_only = Q.args.files_only) :
    ∀ (l : List String), (∀ pat ∈ l, (statLookup P.fs (patComps pat)).isSome = true) →
      P.processPatterns l = Q.processPatterns l
  | [], _ => rfl
  | pat :: rest, hl => by
    rw [FileProcessor.processPatterns, FileProcessor.processPatterns]
    rw [← resolve_one_lit P Q hfs hcfg hgi hfo pat (hl pat (List.mem_cons_self pat rest))]
    rw [← processPatterns_lit P Q hfs hcfg hgi hfo rest
      (fun q hq => hl q (List.mem_cons_of_mem pat hq))]

theorem collectPatterns_lit (P Q : FileProcessor) (hfs : P.fs = Q.fs)
    (hcfg : P.config = Q.config) (hgi : P.gitignore = Q.gitignore) :
    ∀ (l : List String), (∀ pat ∈ l, (statLookup P.fs (patComps pat)).isSome = true) →
      P.collectPatterns l = Q.collectPatterns l
  | [], _ => rfl
  | pat :: rest, hl => by
    rw [FileProcessor.collectPatterns, FileProcessor.collectPatterns]
    rw [← collect_one_lit P Q hfs hcfg hgi pat (hl pat (List.mem_cons_self pat rest))]
    rw [← collectPatterns_lit P Q hfs hcfg hgi rest
      (fun q hq => hl q (List.mem_cons_of_mem pat hq))]

/-- C1 (amended): when every pattern names an existing path (file or
directory), the run's output does not depend on the recursive option, in
either streaming or size-sorted mode: two processors agreeing on the
filesystem, config, gitignore matcher, working directory, pattern list and
the files-only and sort flags — but with arbitrary, possibly different,
recursive flags — produce identical output.  Traversal rooted at an
explicitly named directory always descends without depth limit; only
glob-pattern traversal honors the recursive option. -/
theorem c1_claim (P Q : FileProcessor)
    (hfs : P.fs = Q.fs) (hcfg : P.config = Q.config) (hgi : P.gitignore = Q.gitignore)
    (hfo : P.args.files_only = Q.args.files_only) (hwd : P.working_dir = Q.working_dir)
    (hpats : P.args.patterns = Q.args.patterns)
    (hss : P.args.sort_by_size = Q.args.sort_by_size)
    (h : ∀ pat ∈ P.args.patterns, (statLookup P.fs (patComps pat)).isSome = true) :
    P.process = Q.process := by
  rw [FileProcessor.process, FileProcessor.process, ← hss]
  cases hs : P.args.sort_by_size with
  | false =>
    simp only [Bool.false_eq_true, if_false]
    rw [← hpats]
    exact processPatterns_lit P Q hfs hcfg hgi hfo P.args.patterns h
  | true =>
    simp only [if_true]
    rw [FileProcessor.process_with_size_sorting, FileProcessor.process_with_size_sorting,
      ← hpats, ← hwd]
    rw [← collectPatterns_lit P Q hfs hcfg hgi P.args.patterns h]

/-- Sample processor for C1: recursive is off, the single pattern names a
directory containing only a depth-2 file. -/
def procC1 : FileProcessor :=
  ⟨⟨false, true, ["d"], none, false, true, false⟩, none, ["w"], ⟨none⟩,
    [FSEntry.dir "d" [FSEntry.dir "e" [FSEntry.file "f.txt" 1]]]⟩

/-- The same processor with recursive switched on. -/
def procC1r : FileProcessor :=
  ⟨⟨true, true, ["d"], none, false, true, false⟩, none, ["w"], ⟨none⟩,
    [FSEntry.dir "d" [FSEntry.dir "e" [FSEntry.file "f.txt" 1]]]⟩

/-- C1 counterexample: with the recursive option off, the directory pattern
"d" still emits the file `d/e/f.txt`, which is two levels below the named
directory — the claim says the traversal would then be limited to the
directory's immediate children.  (`process_directory` builds its walker
without the `max_depth(1)` restriction that `create_walker` applies.) -/
theorem c1_counterexample :
    procC1.args.recursive = false ∧
      FileProcessor.process procC1 = ([OutItem.header "d/e/f.txt"], true) := by
  decide

/-- C1 witness: the sample runs with recursive off and on produce identical
output. -/
theorem c1_witness : FileProcessor.process procC1 = FileProcessor.process procC1r :=
  c1_claim procC1 procC1r rfl rfl rfl rfl rfl rfl rfl (by decide)

end AggFiles
